import Mathlib

/-!
Verification of the spin-based lazy-initialization cell of `lazy-static-spin`.

The core of the repository is `src/src/lazy.rs`:

* `pub struct Lazy<T: Sync>(pub UnsafeCell<T>, pub AtomicUint);`
* `Lazy::force_get` returns `&*self.0.get()` (a reference to the storage slot);
* `Lazy::get(builder)` runs the spin state machine on the `AtomicUint`
  (0 = Empty, 1 = Running, anything else = Done).

We embed the cell shallowly: the `UnsafeCell<T>` payload becomes a field
`storage : T` (the macro in `src/src/lib.rs` always initializes it with a
caller-supplied placeholder, so it always holds a value of `T`), and the
`AtomicUint` becomes a field `state : Nat` (the code never does arithmetic on
it, only compares with 0 and 1 and stores 1 and 2, so overflow is irrelevant).

Two semantics are given, both transcribed from `Lazy::get`:

* a sequential, fuel-bounded evaluator `LazySpin.get` for the single-caller
  claims (the spin loop need not terminate, hence the fuel);
* an interleaved small-step transition system `LazySpin.Step` over any family
  of concurrent callers, one program-counter automaton per caller, with every
  atomic instruction of the Rust code as one step.  All atomics in the source
  use `Ordering::SeqCst`, so a sequentially-consistent interleaving semantics
  is the faithful model.
-/

namespace LazySpin

/-- Shallow embedding of `pub struct Lazy<T: Sync>(pub UnsafeCell<T>, pub AtomicUint)`
from `src/src/lazy.rs`.  Field `storage` is the `UnsafeCell<T>` payload
(field `.0`), field `state` is the `AtomicUint` (field `.1`). -/
structure Lazy (T : Type) where
  storage : T
  state : Nat
deriving Repr, DecidableEq

/-- Construction of a cell, as generated by the `lazy_static_unboxed_spin!`
macro in `src/src/lib.rs` (lines 185-191): the `UnsafeCell` is initialized
with the caller-supplied placeholder expression `$u`, and the `AtomicUint`
with `ATOMIC_UINT_INIT`, i.e. `0`.  A constant expression: no builder runs. -/
def Lazy.new {T : Type} (placeholder : T) : Lazy T :=
  { storage := placeholder, state := 0 }

/-- Embedding of `Lazy::force_get`: `unsafe { &*self.0.get() }`, i.e. read the
storage slot. -/
def Lazy.force_get {T : Type} (c : Lazy T) : T :=
  c.storage

/-- Sequential, fuel-bounded embedding of the loop body of `Lazy::get`
(`src/src/lazy.rs` lines 20-34), for a single caller with no interference.
The argument `status` is the local variable `status`; the result is `none`
when the fuel runs out inside the spin loop, and otherwise the final cell
together with the returned value.

Transcription, case by case on `status`:
* `0`: `status = self.1.compare_and_swap(0, 1, SeqCst)`; with no other thread
  the compared value is the cell's current `state`.  On success (`status == 0`,
  the "we init" branch) the cell's state becomes 1, then
  `*self.0.get() = builder()` writes the storage, then
  `self.1.store(2, SeqCst)`, then `return self.force_get()`.  On failure the
  loop re-dispatches on the value the swap returned.
* `1`: `status = self.1.load(SeqCst)` ("we spin") and the loop re-dispatches.
* anything else: `return self.force_get()`. -/
def getLoop {T : Type} (builder : Unit → T) :
    (fuel : Nat) → (c : Lazy T) → (status : Nat) → Option (Lazy T × T)
  | 0, _, _ => none
  | fuel + 1, c, status =>
    match status with
    | 0 =>
      if c.state = 0 then
        let c := { c with state := 1 }
        let c := { c with storage := builder () }
        let c := { c with state := 2 }
        some (c, c.force_get)
      else
        getLoop builder fuel c c.state
    | 1 => getLoop builder fuel c c.state
    | _ => some (c, c.force_get)

/-- Sequential embedding of `Lazy::get`: `let mut status = self.1.load(SeqCst)`
followed by the loop. -/
def get {T : Type} (builder : Unit → T) (c : Lazy T) (fuel : Nat) :
    Option (Lazy T × T) :=
  getLoop builder fuel c c.state

/-- The three-valued synchronization state of the specification's data model
(spec section 3): `Empty`, `Running`, `Done`. -/
inductive SpinState where
  | empty
  | running
  | done
deriving Repr, DecidableEq

/-- The specification's `LazyCell`: one storage slot and one three-valued
state. -/
structure SpecCell (T : Type) where
  storage : T
  state : SpinState
deriving Repr, DecidableEq

/-- Modelled from the spec's algorithm (spec section 4.1, "Algorithm (spin
variant), precisely", steps 1-4), for the refinement comparison with the code:

1. read `state` (done by `specGet` below, then dispatched on here);
2. if `Empty`: attempt `compare_and_exchange(Empty → Running)`; on success
   execute `builder()`, write the result into `storage`, store `state = Done`,
   and return a reference to `storage`;
3. if the exchange failed or the read yielded `Running`: loop, re-reading
   `state`, until it is observed as `Done`;
4. if `state` is already `Done`: return a reference to `storage` directly. -/
def specGetLoop {T : Type} (builder : Unit → T) :
    (fuel : Nat) → (c : SpecCell T) → (status : SpinState) → Option (SpecCell T × T)
  | 0, _, _ => none
  | fuel + 1, c, status =>
    match status with
    | .empty =>
      if c.state = SpinState.empty then
        let c := { c with state := SpinState.running }
        let c := { c with storage := builder () }
        let c := { c with state := SpinState.done }
        some (c, c.storage)
      else
        specGetLoop builder fuel c c.state
    | .running => specGetLoop builder fuel c c.state
    | .done => some (c, c.storage)

/-- Modelled from the spec: `get_or_init` of the spec's algorithm, step 1
(read `state`) followed by the dispatch loop. -/
def specGet {T : Type} (builder : Unit → T) (c : SpecCell T) (fuel : Nat) :
    Option (SpecCell T × T) :=
  specGetLoop builder fuel c c.state

/-- Abstraction from the code's `AtomicUint` state values to the spec's
three-valued state: 0 is `Empty`, 1 is `Running`, everything else is treated
as `Done` by the code's `_ =>` match arm. -/
def absState (n : Nat) : SpinState :=
  if n = 0 then SpinState.empty else if n = 1 then SpinState.running else SpinState.done

/-- Abstraction from the code's cell to the spec's cell. -/
def absCell {T : Type} (c : Lazy T) : SpecCell T :=
  { storage := c.storage, state := absState c.state }

theorem absState_zero : absState 0 = SpinState.empty := rfl

theorem absState_one : absState 1 = SpinState.running := rfl

theorem absState_of_ne (n : Nat) (h0 : n ≠ 0) (h1 : n ≠ 1) :
    absState n = SpinState.done := by
  simp [absState, h0, h1]

/-- The loop of the code refines the loop of the spec's algorithm, step by
step: abstracting the code's result gives exactly the spec algorithm's result
on the abstracted cell and dispatch value. -/
theorem getLoop_refines_specGetLoop {T : Type} (builder : Unit → T) :
    ∀ (fuel : Nat) (c : Lazy T) (status : Nat),
      (getLoop builder fuel c status).map (fun p => (absCell p.1, p.2)) =
        specGetLoop builder fuel (absCell c) (absState status) := by
  intro fuel
  induction fuel with
  | zero => intro c status; rfl
  | succ fuel ih =>
    intro c status
    rcases status with _ | (_ | n)
    · rw [show absState 0 = SpinState.empty from rfl]
      by_cases h : c.state = 0
      · simp [getLoop, specGetLoop, absCell, h, absState, Lazy.force_get]
      · have habs : (absCell c).state ≠ SpinState.empty := by
          simp only [absCell, absState, if_neg h]
          split <;> simp
        simp only [getLoop, specGetLoop, if_neg h, if_neg habs]
        rw [ih c c.state]
        rfl
    · rw [show absState 1 = SpinState.running from rfl]
      simp only [getLoop, specGetLoop]
      rw [ih c c.state]
      rfl
    · have habs : absState (n + 2) = SpinState.done := by
        simp [absState]
      rw [habs]
      simp [getLoop, specGetLoop, absCell, Lazy.force_get]

/-- Program counter of one caller executing `Lazy::get`, one location per
atomic instruction of `src/src/lazy.rs` lines 20-34:

* `start`: about to execute `let mut status = self.1.load(SeqCst)`;
* `loop status`: at the top of the `loop`, about to dispatch `match status`;
* `build`: the compare-and-swap returned 0 ("we init"); about to execute
  `*self.0.get() = builder()`;
* `setDone`: about to execute `self.1.store(2, SeqCst)`;
* `retWinner`: about to execute the winner's `return self.force_get()`;
* `done ret`: returned, with returned value `ret`. -/
inductive TState (T : Type) where
  | start
  | loop (status : Nat)
  | build
  | setDone
  | retWinner
  | done (ret : T)
deriving Repr, DecidableEq

/-- Step labels: `casWin i` marks caller `i`'s successful compare-and-swap
from 0 to 1 (the Empty-to-Running transition), `buildExec i` marks caller
`i`'s execution of `*self.0.get() = builder()`, `tau i` is any other
instruction of caller `i`. -/
inductive Label (ι : Type) where
  | casWin (i : ι)
  | buildExec (i : ι)
  | tau (i : ι)
deriving Repr, DecidableEq

/-- Global configuration: the shared cell plus the program counter of every
caller.  The index type `ι` ranges over call instances: a thread that calls
`get` several times contributes one index per call, so any interleaving of any
number of calls by any number of threads is a schedule of this system. -/
structure Cfg (T ι : Type) where
  cell : Lazy T
  ts : ι → TState T

/-- One interleaved step of the system: some caller `i` executes its next
atomic instruction of `Lazy::get`.  `B i` is the builder passed by caller `i`
(builders are pure in this model, so evaluating `builder()` and storing its
result is the single storage write the source line performs).

Each rule is one source instruction:

* `load`: `let mut status = self.1.load(SeqCst)`;
* `casWin`/`casLose`: `status = self.1.compare_and_swap(0, 1, SeqCst)` in the
  `0 =>` arm — the swap writes 1 exactly when the current state is 0, and the
  old value is re-dispatched on failure;
* `spin`: `1 => status = self.1.load(SeqCst)`;
* `retFast`: `_ => return self.force_get()` for any dispatch value other than
  0 and 1;
* `buildExec`: `unsafe { *self.0.get() = builder() }`;
* `storeDone`: `self.1.store(2, SeqCst)`;
* `retWin`: the winner's `return self.force_get()`. -/
inductive Step {T ι : Type} [DecidableEq ι] (B : ι → T) :
    Label ι → Cfg T ι → Cfg T ι → Prop where
  | load (i : ι) (cfg : Cfg T ι) (h : cfg.ts i = .start) :
      Step B (.tau i) cfg
        ⟨cfg.cell, Function.update cfg.ts i (.loop cfg.cell.state)⟩
  | casWin (i : ι) (cfg : Cfg T ι) (h : cfg.ts i = .loop 0)
      (hs : cfg.cell.state = 0) :
      Step B (.casWin i) cfg
        ⟨⟨cfg.cell.storage, 1⟩, Function.update cfg.ts i .build⟩
  | casLose (i : ι) (cfg : Cfg T ι) (h : cfg.ts i = .loop 0)
      (hs : cfg.cell.state ≠ 0) :
      Step B (.tau i) cfg
        ⟨cfg.cell, Function.update cfg.ts i (.loop cfg.cell.state)⟩
  | spin (i : ι) (cfg : Cfg T ι) (h : cfg.ts i = .loop 1) :
      Step B (.tau i) cfg
        ⟨cfg.cell, Function.update cfg.ts i (.loop cfg.cell.state)⟩
  | retFast (i : ι) (s : Nat) (cfg : Cfg T ι) (h : cfg.ts i = .loop s)
      (h0 : s ≠ 0) (h1 : s ≠ 1) :
      Step B (.tau i) cfg
        ⟨cfg.cell, Function.update cfg.ts i (.done cfg.cell.force_get)⟩
  | buildExec (i : ι) (cfg : Cfg T ι) (h : cfg.ts i = .build) :
      Step B (.buildExec i) cfg
        ⟨⟨B i, cfg.cell.state⟩, Function.update cfg.ts i .setDone⟩
  | storeDone (i : ι) (cfg : Cfg T ι) (h : cfg.ts i = .setDone) :
      Step B (.tau i) cfg
        ⟨⟨cfg.cell.storage, 2⟩, Function.update cfg.ts i .retWinner⟩
  | retWin (i : ι) (cfg : Cfg T ι) (h : cfg.ts i = .retWinner) :
      Step B (.tau i) cfg
        ⟨cfg.cell, Function.update cfg.ts i (.done cfg.cell.force_get)⟩

/-- A finite labeled execution of the interleaved system. -/
inductive Trace {T ι : Type} [DecidableEq ι] (B : ι → T) :
    List (Label ι) → Cfg T ι → Cfg T ι → Prop where
  | nil (cfg : Cfg T ι) : Trace B [] cfg cfg
  | cons {l : Label ι} {ls : List (Label ι)} {c₁ c₂ c₃ : Cfg T ι}
      (hstep : Step B l c₁ c₂) (htr : Trace B ls c₂ c₃) :
      Trace B (l :: ls) c₁ c₃

/-- The initial configuration: the cell as constructed by the macro
(`Lazy.new placeholder`, state 0), every caller about to enter `get`. -/
def init {T ι : Type} (placeholder : T) : Cfg T ι :=
  { cell := Lazy.new placeholder, ts := fun _ => TState.start }

/-- Configuration of the abandoned-builder scenario: the state was left at 1
(`Running`) and the winner is gone (it aborted inside `builder()`), with any
family of fresh callers about to enter `get`. -/
def initStuck {T ι : Type} (storage : T) : Cfg T ι :=
  { cell := { storage := storage, state := 1 }, ts := fun _ => TState.start }

/-- Recognizes the `casWin` labels, for counting Empty-to-Running transitions
in a trace. -/
def isCasWin {ι : Type} : Label ι → Bool
  | .casWin _ => true
  | _ => false

/-- Recognizes the `buildExec` labels, for counting builder executions in a
trace. -/
def isBuildExec {ι : Type} : Label ι → Bool
  | .buildExec _ => true
  | _ => false

/-- Phase `Empty` of the global invariant: state 0, storage still the
placeholder, every caller before its compare-and-swap. -/
def Phase0 {T ι : Type} (u : T) (cfg : Cfg T ι) : Prop :=
  cfg.cell.state = 0 ∧ cfg.cell.storage = u ∧
    ∀ i, cfg.ts i = TState.start ∨ cfg.ts i = TState.loop 0

/-- Phase `Running` of the global invariant: state 1, a unique winner `w`
which is either about to write the storage (storage still the placeholder) or
about to store 2 (storage already `B w`); every other caller is still loading
or spinning with a dispatch value at most 1. -/
def Phase1 {T ι : Type} (B : ι → T) (u : T) (cfg : Cfg T ι) : Prop :=
  cfg.cell.state = 1 ∧ ∃ w,
    ((cfg.ts w = TState.build ∧ cfg.cell.storage = u) ∨
      (cfg.ts w = TState.setDone ∧ cfg.cell.storage = B w)) ∧
    ∀ j, j ≠ w → cfg.ts j = TState.start ∨ cfg.ts j = TState.loop 0 ∨
      cfg.ts j = TState.loop 1

/-- Phase `Done` of the global invariant: state 2, storage holds the winner's
built value and is never written again; the winner is returning or returned
it, every other caller is loading, dispatching on a value at most 2, or has
returned that same value. -/
def Phase2 {T ι : Type} (B : ι → T) (cfg : Cfg T ι) : Prop :=
  cfg.cell.state = 2 ∧ ∃ w, cfg.cell.storage = B w ∧
    (cfg.ts w = TState.retWinner ∨ cfg.ts w = TState.done (B w)) ∧
    ∀ j, j ≠ w → cfg.ts j = TState.start ∨
      (∃ s, s ≤ 2 ∧ cfg.ts j = TState.loop s) ∨ cfg.ts j = TState.done (B w)

/-- The global invariant of the cell: every reachable configuration is in
phase `Empty`, `Running` or `Done`. -/
def Inv {T ι : Type} (B : ι → T) (u : T) (cfg : Cfg T ι) : Prop :=
  Phase0 u cfg ∨ Phase1 B u cfg ∨ Phase2 B cfg

theorem inv_init {T ι : Type} (B : ι → T) (u : T) :
    Inv B u (init (ι := ι) u) :=
  Or.inl ⟨rfl, rfl, fun _ => Or.inl rfl⟩

/-- Preservation: every step of `Lazy::get` keeps the global invariant. -/
theorem inv_step {T ι : Type} [DecidableEq ι] {B : ι → T} {u : T}
    {l : Label ι} {c c' : Cfg T ι}
    (hinv : Inv B u c) (hstep : Step B l c c') : Inv B u c' := by
  cases hstep with
  | load i cfg h =>
    rcases hinv with ⟨h0, hu, hall⟩ | ⟨h1, w, hw, hrest⟩ | ⟨h2, w, hst, hw, hrest⟩
    · refine Or.inl ⟨h0, hu, fun j => ?_⟩
      by_cases hj : j = i
      · subst hj; right; simp [Function.update_same, h0]
      · simpa [Function.update_noteq hj] using hall j
    · have hwi : w ≠ i := fun he => by
        subst he
        rcases hw with ⟨hw, _⟩ | ⟨hw, _⟩ <;> rw [h] at hw <;> exact TState.noConfusion hw
      refine Or.inr (Or.inl ⟨h1, w, by simpa [Function.update_noteq hwi] using hw,
        fun j hj => ?_⟩)
      by_cases hji : j = i
      · subst hji; right; right; simp [Function.update_same, h1]
      · simpa [Function.update_noteq hji] using hrest j hj
    · have hwi : w ≠ i := fun he => by
        subst he
        rcases hw with hw | hw <;> rw [h] at hw <;> exact TState.noConfusion hw
      refine Or.inr (Or.inr ⟨h2, w, hst, by simpa [Function.update_noteq hwi] using hw,
        fun j hj => ?_⟩)
      by_cases hji : j = i
      · subst hji; right; left
        exact ⟨2, le_refl 2, by simp [Function.update_same, h2]⟩
      · simpa [Function.update_noteq hji] using hrest j hj
  | casWin i cfg h hs =>
    rcases hinv with ⟨h0, hu, hall⟩ | ⟨h1, -⟩ | ⟨h2, -⟩
    · refine Or.inr (Or.inl ⟨rfl, i, Or.inl ⟨by simp [Function.update_same], hu⟩,
        fun j hj => ?_⟩)
      rcases hall j with hj' | hj'
      · exact Or.inl (by simpa [Function.update_noteq hj] using hj')
      · exact Or.inr (Or.inl (by simpa [Function.update_noteq hj] using hj'))
    · omega
    · omega
  | casLose i cfg h hs =>
    rcases hinv with ⟨h0, -⟩ | ⟨h1, w, hw, hrest⟩ | ⟨h2, w, hst, hw, hrest⟩
    · exact absurd h0 hs
    · have hwi : w ≠ i := fun he => by
        subst he
        rcases hw with ⟨hw, _⟩ | ⟨hw, _⟩ <;> rw [h] at hw <;> exact TState.noConfusion hw
      refine Or.inr (Or.inl ⟨h1, w, by simpa [Function.update_noteq hwi] using hw,
        fun j hj => ?_⟩)
      by_cases hji : j = i
      · subst hji; right; right; simp [Function.update_same, h1]
      · simpa [Function.update_noteq hji] using hrest j hj
    · have hwi : w ≠ i := fun he => by
        subst he
        rcases hw with hw | hw <;> rw [h] at hw <;> exact TState.noConfusion hw
      refine Or.inr (Or.inr ⟨h2, w, hst, by simpa [Function.update_noteq hwi] using hw,
        fun j hj => ?_⟩)
      by_cases hji : j = i
      · subst hji; right; left
        exact ⟨2, le_refl 2, by simp [Function.update_same, h2]⟩
      · simpa [Function.update_noteq hji] using hrest j hj
  | spin i cfg h =>
    rcases hinv with ⟨h0, hu, hall⟩ | ⟨h1, w, hw, hrest⟩ | ⟨h2, w, hst, hw, hrest⟩
    · rcases hall i with hi | hi <;> rw [h] at hi <;> simp at hi
    · have hwi : w ≠ i := fun he => by
        subst he
        rcases hw with ⟨hw, _⟩ | ⟨hw, _⟩ <;> rw [h] at hw <;> exact TState.noConfusion hw
      refine Or.inr (Or.inl ⟨h1, w, by simpa [Function.update_noteq hwi] using hw,
        fun j hj => ?_⟩)
      by_cases hji : j = i
      · subst hji; right; right; simp [Function.update_same, h1]
      · simpa [Function.update_noteq hji] using hrest j hj
    · have hwi : w ≠ i := fun he => by
        subst he
        rcases hw with hw | hw <;> rw [h] at hw <;> exact TState.noConfusion hw
      refine Or.inr (Or.inr ⟨h2, w, hst, by simpa [Function.update_noteq hwi] using hw,
        fun j hj => ?_⟩)
      by_cases hji : j = i
      · subst hji; right; left
        exact ⟨2, le_refl 2, by simp [Function.update_same, h2]⟩
      · simpa [Function.update_noteq hji] using hrest j hj
  | retFast i s cfg h h0 h1 =>
    rcases hinv with ⟨hz, hu, hall⟩ | ⟨hone, w, hw, hrest⟩ | ⟨h2, w, hst, hw, hrest⟩
    · rcases hall i with hi | hi <;> rw [h] at hi
      · exact TState.noConfusion hi
      · injection hi with hi'; exact absurd hi' h0
    · have hwi : i ≠ w := fun he => by
        subst he
        rcases hw with ⟨hw, _⟩ | ⟨hw, _⟩ <;> rw [h] at hw <;> exact TState.noConfusion hw
      rcases hrest i hwi with hi | hi | hi <;> rw [h] at hi
      · exact TState.noConfusion hi
      · injection hi with hi'; exact absurd hi' h0
      · injection hi with hi'; exact absurd hi' h1
    · have hwi : w ≠ i := fun he => by
        subst he
        rcases hw with hw | hw <;> rw [h] at hw <;> exact TState.noConfusion hw
      refine Or.inr (Or.inr ⟨h2, w, hst, by simpa [Function.update_noteq hwi] using hw,
        fun j hj => ?_⟩)
      by_cases hji : j = i
      · subst hji; right; right
        simp [Function.update_same, Lazy.force_get, hst]
      · simpa [Function.update_noteq hji] using hrest j hj
  | buildExec i cfg h =>
    rcases hinv with ⟨h0, hu, hall⟩ | ⟨h1, w, hw, hrest⟩ | ⟨h2, w, hst, hw, hrest⟩
    · rcases hall i with hi | hi <;> rw [h] at hi <;> exact TState.noConfusion hi
    · have hiw : i = w := by
        by_contra hiw
        rcases hrest i hiw with hi | hi | hi <;> rw [h] at hi <;>
          exact TState.noConfusion hi
      subst hiw
      rcases hw with ⟨-, -⟩ | ⟨hw, -⟩
      · refine Or.inr (Or.inl ⟨h1, i, Or.inr ⟨by simp [Function.update_same], rfl⟩,
          fun j hj => ?_⟩)
        simpa [Function.update_noteq hj] using hrest j hj
      · rw [h] at hw; exact TState.noConfusion hw
    · have hiw : i ≠ w := fun he => by
        subst he
        rcases hw with hw | hw <;> rw [h] at hw <;> exact TState.noConfusion hw
      rcases hrest i hiw with hi | ⟨s, -, hi⟩ | hi <;> rw [h] at hi <;>
        exact TState.noConfusion hi
  | storeDone i cfg h =>
    rcases hinv with ⟨h0, hu, hall⟩ | ⟨h1, w, hw, hrest⟩ | ⟨h2, w, hst, hw, hrest⟩
    · rcases hall i with hi | hi <;> rw [h] at hi <;> exact TState.noConfusion hi
    · have hiw : i = w := by
        by_contra hiw
        rcases hrest i hiw with hi | hi | hi <;> rw [h] at hi <;>
          exact TState.noConfusion hi
      subst hiw
      rcases hw with ⟨hw, -⟩ | ⟨-, hst⟩
      · rw [h] at hw; exact TState.noConfusion hw
      · refine Or.inr (Or.inr ⟨rfl, i, hst, Or.inl (by simp [Function.update_same]),
          fun j hj => ?_⟩)
        rcases hrest j hj with hj' | hj' | hj'
        · exact Or.inl (by simpa [Function.update_noteq hj] using hj')
        · exact Or.inr (Or.inl ⟨0, by omega,
            by simpa [Function.update_noteq hj] using hj'⟩)
        · exact Or.inr (Or.inl ⟨1, by omega,
            by simpa [Function.update_noteq hj] using hj'⟩)
    · have hiw : i ≠ w := fun he => by
        subst he
        rcases hw with hw | hw <;> rw [h] at hw <;> exact TState.noConfusion hw
      rcases hrest i hiw with hi | ⟨s, -, hi⟩ | hi <;> rw [h] at hi <;>
        exact TState.noConfusion hi
  | retWin i cfg h =>
    rcases hinv with ⟨h0, hu, hall⟩ | ⟨h1, w, hw, hrest⟩ | ⟨h2, w, hst, hw, hrest⟩
    · rcases hall i with hi | hi <;> rw [h] at hi <;> exact TState.noConfusion hi
    · have hiw : i ≠ w := fun he => by
        subst he
        rcases hw with ⟨hw, -⟩ | ⟨hw, -⟩ <;> rw [h] at hw <;> exact TState.noConfusion hw
      rcases hrest i hiw with hi | hi | hi <;> rw [h] at hi <;>
        exact TState.noConfusion hi
    · have hiw : i = w := by
        by_contra hiw
        rcases hrest i hiw with hi | ⟨s, -, hi⟩ | hi <;> rw [h] at hi <;>
          exact TState.noConfusion hi
      subst hiw
      refine Or.inr (Or.inr ⟨h2, i, hst, Or.inr ?_, fun j hj => ?_⟩)
      · simp [Function.update_same, Lazy.force_get, hst]
      · rcases hrest j hj with hj' | ⟨s, hs2, hj'⟩ | hj'
        · exact Or.inl (by simpa [Function.update_noteq hj] using hj')
        · exact Or.inr (Or.inl ⟨s, hs2,
            by simpa [Function.update_noteq hj] using hj'⟩)
        · exact Or.inr (Or.inr (by simpa [Function.update_noteq hj] using hj'))

/-- The invariant holds along every trace. -/
theorem inv_trace {T ι : Type} [DecidableEq ι] {B : ι → T} {u : T}
    {ls : List (Label ι)} {c₁ c₂ : Cfg T ι}
    (hinv : Inv B u c₁) (htr : Trace B ls c₁ c₂) : Inv B u c₂ := by
  induction htr with
  | nil cfg => exact hinv
  | cons hstep htr ih => exact ih (inv_step hinv hstep)

/-- Every configuration reachable from the initial one satisfies the
invariant. -/
theorem inv_reachable {T ι : Type} [DecidableEq ι] {B : ι → T} {u : T}
    {ls : List (Label ι)} {cfg : Cfg T ι}
    (htr : Trace B ls (init u) cfg) : Inv B u cfg :=
  inv_trace (inv_init B u) htr

/-- The cell has left the `Empty` state. -/
def Started {T ι : Type} (cfg : Cfg T ι) : Prop :=
  cfg.cell.state ≠ 0

/-- The builder has already been executed: some caller is past its storage
write, or the state already reads 2. -/
def Built {T ι : Type} (cfg : Cfg T ι) : Prop :=
  (∃ i, cfg.ts i = TState.setDone ∨ cfg.ts i = TState.retWinner) ∨
    cfg.cell.state = 2

/-- A `casWin` step happens exactly when the state is 0, and leaves it 1. -/
theorem step_casWin_started {T ι : Type} [DecidableEq ι] {B : ι → T}
    {l : Label ι} {c c' : Cfg T ι}
    (hstep : Step B l c c') (hl : isCasWin l = true) :
    ¬Started c ∧ Started c' := by
  cases hstep with
  | casWin i cfg h hs => exact ⟨fun hc => hc hs, by simp [Started]⟩
  | load i cfg h => exact absurd hl (by simp [isCasWin])
  | casLose i cfg h hs => exact absurd hl (by simp [isCasWin])
  | spin i cfg h => exact absurd hl (by simp [isCasWin])
  | retFast i s cfg h h0 h1 => exact absurd hl (by simp [isCasWin])
  | buildExec i cfg h => exact absurd hl (by simp [isCasWin])
  | storeDone i cfg h => exact absurd hl (by simp [isCasWin])
  | retWin i cfg h => exact absurd hl (by simp [isCasWin])

/-- Any step other than a `casWin` preserves whether the cell has left
`Empty`. -/
theorem step_tau_started {T ι : Type} [DecidableEq ι] {B : ι → T} {u : T}
    {l : Label ι} {c c' : Cfg T ι}
    (hinv : Inv B u c) (hstep : Step B l c c') (hl : isCasWin l = false) :
    (Started c ↔ Started c') := by
  cases hstep with
  | load i cfg h => exact Iff.rfl
  | casWin i cfg h hs => exact absurd hl (by simp [isCasWin])
  | casLose i cfg h hs => exact Iff.rfl
  | spin i cfg h => exact Iff.rfl
  | retFast i s cfg h h0 h1 => exact Iff.rfl
  | buildExec i cfg h => exact Iff.rfl
  | storeDone i cfg h =>
    constructor
    · intro _; simp [Started]
    · intro _
      rcases hinv with ⟨h0, hu, hall⟩ | ⟨h1, -⟩ | ⟨h2, -⟩
      · rcases hall i with hi | hi <;> rw [h] at hi <;> exact TState.noConfusion hi
      · simp [Started, h1]
      · simp [Started, h2]
  | retWin i cfg h => exact Iff.rfl

/-- Transfer of `Built` across an update that touches neither a `setDone` nor
a `retWinner` program counter and does not change whether the state reads 2. -/
theorem built_update_iff {T ι : Type} [DecidableEq ι]
    {c : Cfg T ι} {i : ι} {cell' : Lazy T} {v : TState T}
    (hv1 : v ≠ TState.setDone) (hv2 : v ≠ TState.retWinner)
    (hi1 : c.ts i ≠ TState.setDone) (hi2 : c.ts i ≠ TState.retWinner)
    (hstate : cell'.state = 2 ↔ c.cell.state = 2) :
    Built ⟨cell', Function.update c.ts i v⟩ ↔ Built c := by
  constructor
  · rintro (⟨j, hj⟩ | h2)
    · by_cases hji : j = i
      · subst hji
        rw [show (⟨cell', Function.update c.ts j v⟩ : Cfg T ι).ts j = v from
          Function.update_same j v c.ts] at hj
        rcases hj with hj | hj
        · exact absurd hj hv1
        · exact absurd hj hv2
      · exact Or.inl ⟨j, by simpa [Function.update_noteq hji] using hj⟩
    · exact Or.inr (hstate.mp h2)
  · rintro (⟨j, hj⟩ | h2)
    · have hji : j ≠ i := by
        intro he; subst he
        rcases hj with hj | hj
        · exact hi1 hj
        · exact hi2 hj
      exact Or.inl ⟨j, by simpa [Function.update_noteq hji] using hj⟩
    · exact Or.inr (hstate.mpr h2)

/-- A `buildExec` step (the storage write) happens exactly when the builder
has not yet been executed, and marks it executed. -/
theorem step_buildExec_built {T ι : Type} [DecidableEq ι] {B : ι → T} {u : T}
    {l : Label ι} {c c' : Cfg T ι}
    (hinv : Inv B u c) (hstep : Step B l c c') (hl : isBuildExec l = true) :
    ¬Built c ∧ Built c' := by
  cases hstep with
  | buildExec i cfg h =>
    refine ⟨?_, Or.inl ⟨i, Or.inl (by simp)⟩⟩
    rcases hinv with ⟨h0, hu, hall⟩ | ⟨h1, w, hw, hrest⟩ | ⟨h2, w, hst, hw, hrest⟩
    · rcases hall i with hi | hi <;> rw [h] at hi <;> exact TState.noConfusion hi
    · have hiw : i = w := by
        by_contra hiw
        rcases hrest i hiw with hi | hi | hi <;> rw [h] at hi <;>
          exact TState.noConfusion hi
      subst hiw
      rintro (⟨j, hj⟩ | h2)
      · by_cases hji : j = i
        · subst hji
          rcases hj with hj | hj <;> rw [h] at hj <;> exact TState.noConfusion hj
        · rcases hrest j hji with hj' | hj' | hj' <;> rw [hj'] at hj <;>
            rcases hj with hj | hj <;> exact TState.noConfusion hj
      · omega
    · have hiw : i ≠ w := fun he => by
        subst he
        rcases hw with hw | hw <;> rw [h] at hw <;> exact TState.noConfusion hw
      rcases hrest i hiw with hi | ⟨s, -, hi⟩ | hi <;> rw [h] at hi <;>
        exact TState.noConfusion hi
  | load i cfg h => exact absurd hl (by simp [isBuildExec])
  | casWin i cfg h hs => exact absurd hl (by simp [isBuildExec])
  | casLose i cfg h hs => exact absurd hl (by simp [isBuildExec])
  | spin i cfg h => exact absurd hl (by simp [isBuildExec])
  | retFast i s cfg h h0 h1 => exact absurd hl (by simp [isBuildExec])
  | storeDone i cfg h => exact absurd hl (by simp [isBuildExec])
  | retWin i cfg h => exact absurd hl (by simp [isBuildExec])

/-- Any step other than a `buildExec` preserves whether the builder has been
executed. -/
theorem step_tau_built {T ι : Type} [DecidableEq ι] {B : ι → T} {u : T}
    {l : Label ι} {c c' : Cfg T ι}
    (hinv : Inv B u c) (hstep : Step B l c c') (hl : isBuildExec l = false) :
    (Built c ↔ Built c') := by
  cases hstep with
  | load i cfg h =>
    exact (built_update_iff (by simp) (by simp) (by rw [h]; simp)
      (by rw [h]; simp) Iff.rfl).symm
  | casWin i cfg h hs =>
    exact (built_update_iff (by simp) (by simp) (by rw [h]; simp)
      (by rw [h]; simp) (by simp [hs])).symm
  | casLose i cfg h hs =>
    exact (built_update_iff (by simp) (by simp) (by rw [h]; simp)
      (by rw [h]; simp) Iff.rfl).symm
  | spin i cfg h =>
    exact (built_update_iff (by simp) (by simp) (by rw [h]; simp)
      (by rw [h]; simp) Iff.rfl).symm
  | retFast i s cfg h h0 h1 =>
    exact (built_update_iff (by simp) (by simp) (by rw [h]; simp)
      (by rw [h]; simp) Iff.rfl).symm
  | buildExec i cfg h => exact absurd hl (by simp [isBuildExec])
  | storeDone i cfg h =>
    constructor
    · intro _; exact Or.inr rfl
    · intro _; exact Or.inl ⟨i, Or.inl h⟩
  | retWin i cfg h =>
    rcases hinv with ⟨h0, hu, hall⟩ | ⟨h1, w, hw, hrest⟩ | ⟨h2, -⟩
    · rcases hall i with hi | hi <;> rw [h] at hi <;> exact TState.noConfusion hi
    · have hiw : i ≠ w := fun he => by
        subst he
        rcases hw with ⟨hw, -⟩ | ⟨hw, -⟩ <;> rw [h] at hw <;>
          exact TState.noConfusion hw
      rcases hrest i hiw with hi | hi | hi <;> rw [h] at hi <;>
        exact TState.noConfusion hi
    · exact ⟨fun _ => Or.inr h2, fun _ => Or.inr h2⟩

/-- Counting `casWin` labels along a trace: none once the cell has started,
and at most one in total. -/
theorem cas_count_trace {T ι : Type} [DecidableEq ι] {B : ι → T} {u : T}
    {ls : List (Label ι)} {c₁ c₂ : Cfg T ι}
    (hinv : Inv B u c₁) (htr : Trace B ls c₁ c₂) :
    (Started c₁ → ls.countP isCasWin = 0 ∧ Started c₂) ∧
    (¬Started c₁ → (ls.countP isCasWin = 0 ∧ ¬Started c₂) ∨
      (ls.countP isCasWin = 1 ∧ Started c₂)) := by
  induction htr with
  | nil cfg => exact ⟨fun h => ⟨rfl, h⟩, fun h => Or.inl ⟨rfl, h⟩⟩
  | @cons l ls' cA cB cC hstep htr ih =>
    have ih := ih (inv_step hinv hstep)
    by_cases hl : isCasWin l = true
    · obtain ⟨hnotA, hB⟩ := step_casWin_started hstep hl
      obtain ⟨hc0, hc2⟩ := ih.1 hB
      refine ⟨fun hA => absurd hA hnotA, fun _ => Or.inr ⟨?_, hc2⟩⟩
      simp [List.countP_cons, hl, hc0]
    · have hl' : isCasWin l = false := by
        cases hli : isCasWin l
        · rfl
        · exact absurd hli hl
      have hiff := step_tau_started hinv hstep hl'
      constructor
      · intro hA
        obtain ⟨hc0, hc2⟩ := ih.1 (hiff.mp hA)
        exact ⟨by simp [List.countP_cons, hl', hc0], hc2⟩
      · intro hA
        rcases ih.2 (fun hB => hA (hiff.mpr hB)) with ⟨hc0, hc2⟩ | ⟨hc1, hc2⟩
        · exact Or.inl ⟨by simp [List.countP_cons, hl', hc0], hc2⟩
        · exact Or.inr ⟨by simp [List.countP_cons, hl', hc1], hc2⟩

/-- Counting `buildExec` labels along a trace: none once the builder has run,
and at most one in total. -/
theorem built_count_trace {T ι : Type} [DecidableEq ι] {B : ι → T} {u : T}
    {ls : List (Label ι)} {c₁ c₂ : Cfg T ι}
    (hinv : Inv B u c₁) (htr : Trace B ls c₁ c₂) :
    (Built c₁ → ls.countP isBuildExec = 0 ∧ Built c₂) ∧
    (¬Built c₁ → (ls.countP isBuildExec = 0 ∧ ¬Built c₂) ∨
      (ls.countP isBuildExec = 1 ∧ Built c₂)) := by
  induction htr with
  | nil cfg => exact ⟨fun h => ⟨rfl, h⟩, fun h => Or.inl ⟨rfl, h⟩⟩
  | @cons l ls' cA cB cC hstep htr ih =>
    have ih := ih (inv_step hinv hstep)
    by_cases hl : isBuildExec l = true
    · obtain ⟨hnotA, hB⟩ := step_buildExec_built hinv hstep hl
      obtain ⟨hc0, hc2⟩ := ih.1 hB
      refine ⟨fun hA => absurd hA hnotA, fun _ => Or.inr ⟨?_, hc2⟩⟩
      simp [List.countP_cons, hl, hc0]
    · have hl' : isBuildExec l = false := by
        cases hli : isBuildExec l
        · rfl
        · exact absurd hli hl
      have hiff := step_tau_built hinv hstep hl'
      constructor
      · intro hA
        obtain ⟨hc0, hc2⟩ := ih.1 (hiff.mp hA)
        exact ⟨by simp [List.countP_cons, hl', hc0], hc2⟩
      · intro hA
        rcases ih.2 (fun hB => hA (hiff.mpr hB)) with ⟨hc0, hc2⟩ | ⟨hc1, hc2⟩
        · exact Or.inl ⟨by simp [List.countP_cons, hl', hc0], hc2⟩
        · exact Or.inr ⟨by simp [List.countP_cons, hl', hc1], hc2⟩

/-- A caller is at the `build` program counter only if it was already there or
this very step was its winning compare-and-swap. -/
theorem step_build_pc {T ι : Type} [DecidableEq ι] {B : ι → T}
    {l : Label ι} {c c' : Cfg T ι} {j : ι}
    (hstep : Step B l c c') (hj : c'.ts j = TState.build) :
    c.ts j = TState.build ∨ l = Label.casWin j := by
  cases hstep with
  | load i cfg h =>
    by_cases hji : j = i
    · subst hji; simp [Function.update_same] at hj
    · exact Or.inl (by simpa [Function.update_noteq hji] using hj)
  | casWin i cfg h hs =>
    by_cases hji : j = i
    · subst hji; exact Or.inr rfl
    · exact Or.inl (by simpa [Function.update_noteq hji] using hj)
  | casLose i cfg h hs =>
    by_cases hji : j = i
    · subst hji; simp [Function.update_same] at hj
    · exact Or.inl (by simpa [Function.update_noteq hji] using hj)
  | spin i cfg h =>
    by_cases hji : j = i
    · subst hji; simp [Function.update_same] at hj
    · exact Or.inl (by simpa [Function.update_noteq hji] using hj)
  | retFast i s cfg h h0 h1 =>
    by_cases hji : j = i
    · subst hji; simp [Function.update_same] at hj
    · exact Or.inl (by simpa [Function.update_noteq hji] using hj)
  | buildExec i cfg h =>
    by_cases hji : j = i
    · subst hji; simp [Function.update_same] at hj
    · exact Or.inl (by simpa [Function.update_noteq hji] using hj)
  | storeDone i cfg h =>
    by_cases hji : j = i
    · subst hji; simp [Function.update_same] at hj
    · exact Or.inl (by simpa [Function.update_noteq hji] using hj)
  | retWin i cfg h =>
    by_cases hji : j = i
    · subst hji; simp [Function.update_same] at hj
    · exact Or.inl (by simpa [Function.update_noteq hji] using hj)

/-- Whenever a trace contains a `buildExec` event of caller `j`, either the
trace started with `j` already at the `build` counter, or the trace also
contains `j`'s winning compare-and-swap. -/
theorem trace_buildExec_casWin {T ι : Type} [DecidableEq ι] {B : ι → T}
    {ls : List (Label ι)} {c₁ c₂ : Cfg T ι} {j : ι}
    (htr : Trace B ls c₁ c₂) (hmem : Label.buildExec j ∈ ls) :
    c₁.ts j = TState.build ∨ Label.casWin j ∈ ls := by
  induction htr with
  | nil cfg => simp at hmem
  | @cons l ls' cA cB cC hstep htr ih =>
    rcases List.mem_cons.mp hmem with hl | hmem'
    · cases hl.symm ▸ hstep with
      | buildExec i cfg h => exact Or.inl h
    · rcases ih hmem' with hB | hmem''
      · rcases step_build_pc hstep hB with hA | hl
        · exact Or.inl hA
        · exact Or.inr (by rw [← hl]; exact List.mem_cons_self _ _)
      · exact Or.inr (List.mem_cons_of_mem _ hmem'')

/-- If any caller has returned, the cell is in phase `Done`. -/
theorem done_phase2 {T ι : Type} [DecidableEq ι] {B : ι → T} {u : T}
    {cfg : Cfg T ι} (hinv : Inv B u cfg) {i : ι} {r : T}
    (hd : cfg.ts i = TState.done r) : Phase2 B cfg := by
  rcases hinv with ⟨h0, hu, hall⟩ | ⟨h1, w, hw, hrest⟩ | hp
  · rcases hall i with hi | hi <;> rw [hd] at hi <;> exact TState.noConfusion hi
  · by_cases hiw : i = w
    · subst hiw
      rcases hw with ⟨hw, -⟩ | ⟨hw, -⟩ <;> rw [hd] at hw <;>
        exact TState.noConfusion hw
    · rcases hrest i hiw with hi | hi | hi <;> rw [hd] at hi <;>
      exact TState.noConfusion hi
  · exact hp

/-- In phase `Done`, every returned value is the content of the one storage
slot, which is the winner's built value. -/
theorem done_ret_eq {T ι : Type} [DecidableEq ι] {B : ι → T} {cfg : Cfg T ι}
    (hp : Phase2 B cfg) {i : ι} {r : T} (hd : cfg.ts i = TState.done r) :
    r = cfg.cell.storage ∧ cfg.cell.state = 2 := by
  obtain ⟨h2, w, hst, hw, hrest⟩ := hp
  refine ⟨?_, h2⟩
  by_cases hiw : i = w
  · subst hiw
    rcases hw with hw | hw
    · rw [hd] at hw; exact TState.noConfusion hw
    · rw [hd] at hw
      injection hw with hr
      rw [hr, hst]
  · rcases hrest i hiw with hi | ⟨s, -, hi⟩ | hi <;> rw [hd] at hi
    · exact TState.noConfusion hi
    · exact TState.noConfusion hi
    · injection hi with hr
      rw [hr, hst]

/-- A cell whose state reads 2 is in phase `Done`. -/
theorem phase2_of_state {T ι : Type} [DecidableEq ι] {B : ι → T} {u : T}
    {cfg : Cfg T ι} (hinv : Inv B u cfg) (h2 : cfg.cell.state = 2) :
    Phase2 B cfg := by
  rcases hinv with ⟨h0, -⟩ | ⟨h1, -⟩ | hp
  · omega
  · omega
  · exact hp

/-- Progress: once the state reads 2, every caller can reach `done` with the
stored value by running only its own remaining instructions. -/
theorem progress_of_done {T ι : Type} [DecidableEq ι] {B : ι → T} {u : T}
    {cfg : Cfg T ι} (hinv : Inv B u cfg) (h2 : cfg.cell.state = 2) (i : ι) :
    ∃ ls cfg', Trace B ls cfg cfg' ∧
      cfg'.ts i = TState.done cfg.cell.storage := by
  obtain ⟨h2', w, hst, hw, hrest⟩ := phase2_of_state hinv h2
  by_cases hiw : i = w
  · subst hiw
    rcases hw with hw | hw
    · refine ⟨[Label.tau i], _,
        Trace.cons (Step.retWin i cfg hw) (Trace.nil _), ?_⟩
      simp [Function.update_same, Lazy.force_get]
    · exact ⟨[], cfg, Trace.nil cfg, by rw [hw, hst]⟩
  · rcases hrest i hiw with hi | ⟨s, hs2, hi⟩ | hi
    · refine ⟨[Label.tau i, Label.tau i], _,
        Trace.cons (Step.load i cfg hi)
          (Trace.cons (Step.retFast i cfg.cell.state
            ⟨cfg.cell, Function.update cfg.ts i (TState.loop cfg.cell.state)⟩
            (by simp [Function.update_same]) (by omega) (by omega))
            (Trace.nil _)), ?_⟩
      simp [Function.update_same, Lazy.force_get]
    · interval_cases s
      · refine ⟨[Label.tau i, Label.tau i], _,
          Trace.cons (Step.casLose i cfg hi (by omega))
            (Trace.cons (Step.retFast i cfg.cell.state
              ⟨cfg.cell, Function.update cfg.ts i (TState.loop cfg.cell.state)⟩
              (by simp [Function.update_same]) (by omega) (by omega))
              (Trace.nil _)), ?_⟩
        simp [Function.update_same, Lazy.force_get]
      · refine ⟨[Label.tau i, Label.tau i], _,
          Trace.cons (Step.spin i cfg hi)
            (Trace.cons (Step.retFast i cfg.cell.state
              ⟨cfg.cell, Function.update cfg.ts i (TState.loop cfg.cell.state)⟩
              (by simp [Function.update_same]) (by omega) (by omega))
              (Trace.nil _)), ?_⟩
        simp [Function.update_same, Lazy.force_get]
      · refine ⟨[Label.tau i], _,
          Trace.cons (Step.retFast i 2 cfg hi (by omega) (by omega))
            (Trace.nil _), ?_⟩
        simp [Function.update_same, Lazy.force_get]
    · exact ⟨[], cfg, Trace.nil cfg, by rw [hi, hst]⟩

/-- Invariant of the abandoned-builder scenario: the state stays 1, the
storage is never written, and every caller only ever loads or spins. -/
def InvStuck {T ι : Type} (st : T) (cfg : Cfg T ι) : Prop :=
  cfg.cell.state = 1 ∧ cfg.cell.storage = st ∧
    ∀ i, cfg.ts i = TState.start ∨ cfg.ts i = TState.loop 1

theorem invStuck_step {T ι : Type} [DecidableEq ι] {B : ι → T} {st : T}
    {l : Label ι} {c c' : Cfg T ι}
    (hinv : InvStuck st c) (hstep : Step B l c c') : InvStuck st c' := by
  obtain ⟨h1, hsto, hall⟩ := hinv
  cases hstep with
  | load i cfg h =>
    refine ⟨h1, hsto, fun j => ?_⟩
    by_cases hji : j = i
    · subst hji; right; simp [Function.update_same, h1]
    · simpa [Function.update_noteq hji] using hall j
  | casWin i cfg h hs => omega
  | casLose i cfg h hs =>
    rcases hall i with hi | hi <;> rw [h] at hi
    · exact TState.noConfusion hi
    · injection hi with hi'; omega
  | spin i cfg h =>
    refine ⟨h1, hsto, fun j => ?_⟩
    by_cases hji : j = i
    · subst hji; right; simp [Function.update_same, h1]
    · simpa [Function.update_noteq hji] using hall j
  | retFast i s cfg h hz ho =>
    rcases hall i with hi | hi <;> rw [h] at hi
    · exact TState.noConfusion hi
    · injection hi with hi'; exact absurd hi' ho
  | buildExec i cfg h =>
    rcases hall i with hi | hi <;> rw [h] at hi <;> exact TState.noConfusion hi
  | storeDone i cfg h =>
    rcases hall i with hi | hi <;> rw [h] at hi <;> exact TState.noConfusion hi
  | retWin i cfg h =>
    rcases hall i with hi | hi <;> rw [h] at hi <;> exact TState.noConfusion hi

theorem invStuck_trace {T ι : Type} [DecidableEq ι] {B : ι → T} {st : T}
    {ls : List (Label ι)} {c₁ c₂ : Cfg T ι}
    (hinv : InvStuck st c₁) (htr : Trace B ls c₁ c₂) : InvStuck st c₂ := by
  induction htr with
  | nil cfg => exact hinv
  | cons hstep htr ih => exact ih (invStuck_step hinv hstep)

/-- Builder family of the concrete example execution: one caller, whose
builder returns 7. -/
def exB : Unit → Nat := fun _ => 7

/-- Configurations of the concrete example execution of `Lazy::get`. -/
def exCfg1 : Cfg Nat Unit := ⟨⟨0, 0⟩, fun _ => TState.loop 0⟩

def exCfg2 : Cfg Nat Unit := ⟨⟨0, 1⟩, fun _ => TState.build⟩

def exCfg3 : Cfg Nat Unit := ⟨⟨7, 1⟩, fun _ => TState.setDone⟩

def exCfg4 : Cfg Nat Unit := ⟨⟨7, 2⟩, fun _ => TState.retWinner⟩

def exCfg5 : Cfg Nat Unit := ⟨⟨7, 2⟩, fun _ => TState.done 7⟩

/-- The labels of the concrete example execution. -/
def exLabels : List (Label Unit) :=
  [Label.tau (), Label.casWin (), Label.buildExec (), Label.tau (), Label.tau ()]

theorem step_cast {T ι : Type} [DecidableEq ι] {B : ι → T} {l : Label ι}
    {c c₁ c₂ : Cfg T ι} (hstep : Step B l c c₁) (he : c₁ = c₂) :
    Step B l c c₂ := he ▸ hstep

theorem cfg_unit_ext {f : Unit → TState Nat} {v : TState Nat}
    {cell cell' : Lazy Nat} (hc : cell = cell') :
    (⟨cell, Function.update f () v⟩ : Cfg Nat Unit) = ⟨cell', fun _ => v⟩ := by
  cases hc
  have hupd : Function.update f () v = fun _ => v := by
    funext x
    cases x
    simp [Function.update_same]
  rw [hupd]

theorem exStep1 : Step exB (Label.tau ()) (init 0) exCfg1 :=
  step_cast (Step.load () (init 0) rfl) (cfg_unit_ext rfl)

theorem exStep2 : Step exB (Label.casWin ()) exCfg1 exCfg2 :=
  step_cast (Step.casWin () exCfg1 rfl rfl) (cfg_unit_ext rfl)

theorem exStep3 : Step exB (Label.buildExec ()) exCfg2 exCfg3 :=
  step_cast (Step.buildExec () exCfg2 rfl) (cfg_unit_ext rfl)

theorem exStep4 : Step exB (Label.tau ()) exCfg3 exCfg4 :=
  step_cast (Step.storeDone () exCfg3 rfl) (cfg_unit_ext rfl)

theorem exStep5 : Step exB (Label.tau ()) exCfg4 exCfg5 :=
  step_cast (Step.retWin () exCfg4 rfl) (cfg_unit_ext rfl)

/-- A complete concrete execution: one caller runs `get` on a fresh cell with
placeholder 0 and builder value 7, and returns 7. -/
theorem exTrace : Trace exB exLabels (init 0) exCfg5 :=
  Trace.cons exStep1 (Trace.cons exStep2 (Trace.cons exStep3
    (Trace.cons exStep4 (Trace.cons exStep5 (Trace.nil _)))))

theorem not_started_init {T ι : Type} (u : T) : ¬Started (init (ι := ι) u) :=
  fun h => h rfl

theorem not_built_init {T ι : Type} (u : T) : ¬Built (init (ι := ι) u) := by
  rintro (⟨i, hi | hi⟩ | h2)
  · exact TState.noConfusion hi
  · exact TState.noConfusion hi
  · simp [init, Lazy.new] at h2

/-- Claim C1: for every cell and every interleaving of any family of calls to
`get`, the builder body executes at most once and the state transition from 0
(`Empty`) to 1 (`Running`) occurs at most once; each is exactly once as soon
as any call has returned; and the caller that executes the builder is exactly
the caller whose compare-and-swap from 0 to 1 succeeded. -/
theorem claim_C1 {T ι : Type} [DecidableEq ι] (B : ι → T) (u : T)
    {ls : List (Label ι)} {cfg : Cfg T ι}
    (htr : Trace B ls (init u) cfg) :
    ls.countP isCasWin ≤ 1 ∧ ls.countP isBuildExec ≤ 1 ∧
      (∀ j, Label.buildExec j ∈ ls → Label.casWin j ∈ ls) ∧
      ((∃ i r, cfg.ts i = TState.done r) →
        ls.countP isCasWin = 1 ∧ ls.countP isBuildExec = 1) := by
  have hcas := (cas_count_trace (inv_init B u) htr).2 (not_started_init u)
  have hbui := (built_count_trace (inv_init B u) htr).2 (not_built_init u)
  refine ⟨?_, ?_, ?_, ?_⟩
  · rcases hcas with ⟨h, -⟩ | ⟨h, -⟩ <;> omega
  · rcases hbui with ⟨h, -⟩ | ⟨h, -⟩ <;> omega
  · intro j hmem
    rcases trace_buildExec_casWin htr hmem with hb | hc
    · exact absurd hb (by simp [init])
    · exact hc
  · rintro ⟨i, r, hd⟩
    obtain ⟨h2, -⟩ := done_phase2 (inv_reachable htr) hd
    constructor
    · rcases hcas with ⟨-, hns⟩ | ⟨h1, -⟩
      · exact absurd (by simp [Started, h2]) hns
      · exact h1
    · rcases hbui with ⟨-, hnb⟩ | ⟨h1, -⟩
      · exact absurd (Or.inr h2) hnb
      · exact h1

/-- Witness for C1: the concrete solo execution returns, and its trace has
exactly one compare-and-swap win and one builder execution. -/
theorem claim_C1_witness :
    exLabels.countP isCasWin = 1 ∧ exLabels.countP isBuildExec = 1 :=
  (claim_C1 exB 0 exTrace).2.2.2 ⟨(), 7, rfl⟩

/-- Claim C2: `Lazy::get` implements exactly the specified spin algorithm:
mapping the code's fuel-bounded evaluator through the state abstraction
(0 to `Empty`, 1 to `Running`, anything else to `Done`) gives precisely the
spec algorithm's evaluator, for every cell, builder, dispatch value and
fuel. -/
theorem claim_C2 {T : Type} (builder : Unit → T) (c : Lazy T) (fuel : Nat) :
    (get builder c fuel).map (fun p => (absCell p.1, p.2)) =
      specGet builder (absCell c) fuel :=
  getLoop_refines_specGetLoop builder fuel c c.state

/-- Claim C3: in every reachable configuration whose state reads 2 (`Done`),
the storage has already been written with some caller's completed builder
result, and the storage-writing event occurred exactly once in the trace
leading there (in particular before the state could read 2). -/
theorem claim_C3 {T ι : Type} [DecidableEq ι] (B : ι → T) (u : T)
    {ls : List (Label ι)} {cfg : Cfg T ι}
    (htr : Trace B ls (init u) cfg) (h2 : cfg.cell.state = 2) :
    (∃ w, cfg.cell.storage = B w) ∧ ls.countP isBuildExec = 1 := by
  obtain ⟨-, w, hst, -, -⟩ := phase2_of_state (inv_reachable htr) h2
  refine ⟨⟨w, hst⟩, ?_⟩
  rcases (built_count_trace (inv_init B u) htr).2 (not_built_init u) with
    ⟨-, hnb⟩ | ⟨h1, -⟩
  · exact absurd (Or.inr h2) hnb
  · exact h1

/-- Witness for C3: the final configuration of the concrete execution has
state 2, storage equal to the builder's value, and one builder execution in
its trace. -/
theorem claim_C3_witness :
    (∃ w, exCfg5.cell.storage = exB w) ∧ exLabels.countP isBuildExec = 1 :=
  claim_C3 exB 0 exTrace rfl

/-- Claim C4: a single call of `get` on a cell whose state is 2 (`Done`)
returns the stored value after one loop iteration, with any builder (the
result does not depend on the builder, which is never invoked) and with no
change to the cell (no write to state or storage). -/
theorem claim_C4 {T : Type} (c : Lazy T) (h : c.state = 2)
    (builder : Unit → T) (fuel : Nat) :
    get builder c (fuel + 1) = some (c, c.force_get) := by
  unfold get
  rw [h]
  rfl

/-- Witness for C4: `get` with builder 1 on a fresh cell yields 1, and a
second `get` with the different builder 2 on the resulting cell still yields
1 and leaves the cell unchanged. -/
theorem claim_C4_witness :
    get (fun _ => 1) (Lazy.new (0 : Nat)) 1 =
      some ({ storage := 1, state := 2 }, 1) ∧
    get (fun _ => 2) ({ storage := 1, state := 2 } : Lazy Nat) 1 =
      some ({ storage := 1, state := 2 }, 1) :=
  ⟨rfl, claim_C4 { storage := 1, state := 2 } rfl (fun _ => 2) 0⟩

/-- Claim C5: `get` never returns while the state is 0 or 1 — whenever a
caller has returned, the state reads 2 and the returned value is the one
storage content, which is some caller's fully built value — and once the
state reads 2, every caller can reach return with the stored value by
executing only its own remaining instructions. -/
theorem claim_C5 {T ι : Type} [DecidableEq ι] (B : ι → T) (u : T)
    {ls : List (Label ι)} {cfg : Cfg T ι}
    (htr : Trace B ls (init u) cfg) :
    (∀ i r, cfg.ts i = TState.done r →
      cfg.cell.state = 2 ∧ r = cfg.cell.storage ∧ ∃ w, r = B w) ∧
    (cfg.cell.state = 2 → ∀ i, ∃ ls' cfg', Trace B ls' cfg cfg' ∧
      cfg'.ts i = TState.done cfg.cell.storage) := by
  have hinv := inv_reachable htr
  constructor
  · intro i r hd
    have hp := done_phase2 hinv hd
    obtain ⟨hr, h2⟩ := done_ret_eq hp hd
    obtain ⟨-, w, hst, -, -⟩ := hp
    exact ⟨h2, hr, w, hr.trans hst⟩
  · intro h2 i
    exact progress_of_done hinv h2 i

/-- Witness for C5: in the concrete execution the caller has returned, so the
state reads 2 and its returned value 7 is the storage content. -/
theorem claim_C5_witness :
    exCfg5.cell.state = 2 ∧ (7 : Nat) = exCfg5.cell.storage :=
  ⟨((claim_C5 exB 0 exTrace).1 () 7 rfl).1,
    ((claim_C5 exB 0 exTrace).1 () 7 rfl).2.1⟩

/-- Claim C6: any two callers that returned from `get` on the same cell got
the content of the one storage slot owned by that cell — the same value, not
per-caller copies. -/
theorem claim_C6 {T ι : Type} [DecidableEq ι] (B : ι → T) (u : T)
    {ls : List (Label ι)} {cfg : Cfg T ι}
    (htr : Trace B ls (init u) cfg) (i j : ι) (r r' : T)
    (hi : cfg.ts i = TState.done r) (hj : cfg.ts j = TState.done r') :
    r = cfg.cell.storage ∧ r' = cfg.cell.storage ∧ r = r' := by
  have hinv := inv_reachable htr
  have h1 := (done_ret_eq (done_phase2 hinv hi) hi).1
  have h2 := (done_ret_eq (done_phase2 hinv hj) hj).1
  exact ⟨h1, h2, h1.trans h2.symm⟩

/-- Witness for C6: the concrete execution's returned value 7 coincides with
the cell's storage. -/
theorem claim_C6_witness :
    (7 : Nat) = exCfg5.cell.storage ∧ (7 : Nat) = exCfg5.cell.storage ∧
      (7 : Nat) = 7 :=
  claim_C6 exB 0 exTrace () () 7 7 rfl rfl

/-- Claim C7: constructing a cell runs no builder: it is the constant value
with state 0 (`ATOMIC_UINT_INIT`) and the placeholder in storage, and the
builder's value appears only at the first `get`, which stores it and state 2
and returns it. -/
theorem claim_C7 {T : Type} (u : T) (builder : Unit → T) :
    Lazy.new u = { storage := u, state := 0 } ∧
      (Lazy.new u).state = 0 ∧ (Lazy.new u).storage = u ∧
      get builder (Lazy.new u) 1 =
        some ({ storage := builder (), state := 2 }, builder ()) :=
  ⟨rfl, rfl, rfl, rfl⟩

/-- Claim C8: if the state is 1 (`Running`) and no caller ever performs the
store of 2 (the winner is gone), then after any number of steps by any family
of fresh callers the state still reads 1, no call has returned, and every
caller still has a next spinning step — there is no error return, timeout or
recovery at this layer. -/
theorem claim_C8 {T ι : Type} [DecidableEq ι] (B : ι → T) (st : T)
    {ls : List (Label ι)} {cfg : Cfg T ι}
    (htr : Trace B ls (initStuck st) cfg) :
    cfg.cell.state = 1 ∧ (∀ i r, cfg.ts i ≠ TState.done r) ∧
      (∀ i, ∃ cfg', Step B (Label.tau i) cfg cfg') := by
  obtain ⟨h1, hsto, hall⟩ :=
    invStuck_trace ⟨rfl, rfl, fun _ => Or.inl rfl⟩ htr
  refine ⟨h1, fun i r hd => ?_, fun i => ?_⟩
  · rcases hall i with hi | hi <;> rw [hd] at hi <;> exact TState.noConfusion hi
  · rcases hall i with hi | hi
    · exact ⟨_, Step.load i cfg hi⟩
    · exact ⟨_, Step.spin i cfg hi⟩

/-- Witness for C8: the stuck configuration itself has state 1 and its caller
has not returned. -/
theorem claim_C8_witness :
    (initStuck (ι := Unit) (0 : Nat)).cell.state = 1 ∧
      (initStuck (ι := Unit) (0 : Nat)).ts () ≠ TState.done 5 :=
  ⟨(claim_C8 exB 0 (Trace.nil _)).1, (claim_C8 exB 0 (Trace.nil _)).2.1 () 5⟩

/-- Claim C9: the storage slot always holds a valid value of the payload
type: in every reachable configuration it contains either the construction
placeholder or some caller's builder result. -/
theorem claim_C9 {T ι : Type} [DecidableEq ι] (B : ι → T) (u : T)
    {ls : List (Label ι)} {cfg : Cfg T ι}
    (htr : Trace B ls (init u) cfg) :
    cfg.cell.storage = u ∨ ∃ i, cfg.cell.storage = B i := by
  rcases inv_reachable htr with ⟨-, hu, -⟩ | ⟨-, w, hw, -⟩ | ⟨-, w, hst, -, -⟩
  · exact Or.inl hu
  · rcases hw with ⟨-, hu⟩ | ⟨-, hst⟩
    · exact Or.inl hu
    · exact Or.inr ⟨w, hst⟩
  · exact Or.inr ⟨w, hst⟩

/-- Witness for C9: in the final configuration of the concrete execution the
storage is the placeholder 0 or a builder value (here: the builder value
7). -/
theorem claim_C9_witness :
    exCfg5.cell.storage = 0 ∨ ∃ i, exCfg5.cell.storage = exB i :=
  claim_C9 exB 0 exTrace

/-- Claim C10: for every state value other than 0 and 1 — not only 2 but any
value, including the maximum 64-bit unsigned value — `get` returns the
storage content in one iteration without invoking the builder and without
writing state or storage. -/
theorem claim_C10 {T : Type} (v : T) (s : Nat) (h0 : s ≠ 0) (h1 : s ≠ 1)
    (builder : Unit → T) (fuel : Nat) :
    get builder { storage := v, state := s } (fuel + 1) =
      some ({ storage := v, state := s }, v) := by
  obtain ⟨n, rfl⟩ : ∃ n, s = n + 2 := ⟨s - 2, by omega⟩
  rfl

/-- Witness for C10: state values 3 and 18446744073709551615 (the maximum
unsigned 64-bit value) are both treated as `Done`. -/
theorem claim_C10_witness :
    get (fun _ => 0) ({ storage := 5, state := 3 } : Lazy Nat) 1 =
      some ({ storage := 5, state := 3 }, 5) ∧
    get (fun _ => 0) ({ storage := 5, state := 18446744073709551615 } : Lazy Nat) 1 =
      some ({ storage := 5, state := 18446744073709551615 }, 5) :=
  ⟨claim_C10 5 3 (by decide) (by decide) (fun _ => 0) 0,
    claim_C10 5 18446744073709551615 (by decide) (by decide) (fun _ => 0) 0⟩

end LazySpin
